import Mathlib

/-!
A shallow embedding of the Merkle Patricia Trie implementation in
`src/index.ts` (class `MerklePatriciaTrie`), together with a verification of
its documented properties.

Modelling conventions:

* Nibbles are `Nat` values `0..15`.  The TypeScript code stores nibbles as
  lowercase hexadecimal characters and applies `parseInt(c, 16)` whenever it
  needs the numeric value; since that mapping is a bijection on the stored
  alphabet, we store the numeric value directly and render it back with
  `Nat.digitChar` (which produces the same lowercase hexadecimal digit)
  when a node is serialised for hashing.
* A branch node in the source holds `new Array(16).fill(null)`; we model the
  slot array as a function `Nat → TrieNode` (only indices `0..15` are ever
  read or written, because indices always come from nibbles) and `null` as
  the constructor `TrieNode.empty`.  Writing slot `i` is `updateFn`.
* The TypeScript union type lists the variants branch, extension and leaf,
  but both `insertRecursive` and `getRecursive` carry a `default` arm for
  runtime values outside the declared union (`index.ts` lines 189-191 and
  342-343).  The constructor `TrieNode.unknown` stands for such a value, so
  those `default` arms are part of the model: insertion throws
  (`Except.error`), lookup returns `null` (`none`).
* `throw new Error(...)` is modelled with `Except String`; `null` results of
  `get` are `Option.none`.
* `keccak256` is an external library function (from `js-sha3`, not part of
  this repository); `calculateNodeHash` is therefore parametrised by the
  hash function `h : String → String`.  All hashing facts proved below are
  facts about the exact content strings fed to the hash, so they transfer
  to any instantiation of `h`.
* Insertion in the source mutates branch children in place and reassigns
  `this.root`; the model is functional and returns the new root, which is
  observationally the same tree (the spec itself describes insertion as
  `insert(root, keyNibbles, value) -> newRoot`).
-/

namespace MPT

/-- The node model of `index.ts`: `BranchNode` (16 slots plus an optional
branch value), `ExtensionNode` (tag, shared nibble run, next node),
`LeafNode` (tag, key suffix, value).  `empty` is the `null` slot / empty
root; `unknown` is a runtime value outside the declared union (handled by
the `default` arms in the source). -/
inductive TrieNode where
  | empty
  | branch (children : Nat → TrieNode) (value : Option String)
  | extension (pfx : Nat) (sharedNibbles : List Nat) (nextNode : TrieNode)
  | leaf (pfx : Nat) (keyEnd : List Nat) (value : String)
  | unknown

/-- JavaScript truthiness test on a slot: `!branchNode.children[index]`. -/
def isEmpty : TrieNode → Bool
  | .empty => true
  | _ => false

/-- `children[i] = c` on the slot array, functionally. -/
def updateFn (children : Nat → TrieNode) (i : Nat) (c : TrieNode) : Nat → TrieNode :=
  fun j => if j = i then c else children j

/-- Membership in the character class of the regular expression
`/^[0-9a-fA-F]+$/` from `stringToNibbles`. -/
def isHexDigitCh (c : Char) : Bool :=
  (decide ('0' ≤ c) && decide (c ≤ '9')) ||
    (decide ('a' ≤ c) && decide (c ≤ 'f')) ||
    (decide ('A' ≤ c) && decide (c ≤ 'F'))

/-- The full test `/^[0-9a-fA-F]+$/.test(str)`: at least one character, all
of them hexadecimal digits. -/
def looksHex (str : String) : Bool :=
  !str.data.isEmpty && str.data.all isHexDigitCh

/-- Numeric value of one hexadecimal digit, case-insensitive: the composite
of `toLowerCase` and `parseInt(c, 16)` from the source, written out digit by
digit.  The default arm is never reached on the hexadecimal path because
`looksHex` guards it. -/
def hexVal (c : Char) : Nat :=
  match c with
  | '0' => 0 | '1' => 1 | '2' => 2 | '3' => 3 | '4' => 4
  | '5' => 5 | '6' => 6 | '7' => 7 | '8' => 8 | '9' => 9
  | 'a' => 10 | 'b' => 11 | 'c' => 12 | 'd' => 13 | 'e' => 14 | 'f' => 15
  | 'A' => 10 | 'B' => 11 | 'C' => 12 | 'D' => 13 | 'E' => 14 | 'F' => 15
  | _ => 0

/-- `stringToNibbles` (index.ts lines 46-60): a hexadecimal-looking key maps
one character to one nibble; any other key is split character by character
into a high and a low nibble of its character code (`(byte >> 4) & 0xF` is
`code / 16 % 16`). -/
def stringToNibbles (str : String) : List Nat :=
  if looksHex str then
    str.data.map hexVal
  else
    str.data.foldr (fun ch acc => (ch.toNat / 16 % 16) :: (ch.toNat % 16) :: acc) []

/-- `encodePrefix` (index.ts lines 63-80): the tag of a nibble run.  Leaf
runs get 2 (even length) or 3 (odd length); extension runs get 0 or 1.  The
zero-padded `encodedNibbles` component of the source return value is unused
by every caller, so only the tag is modelled. -/
def encodePfx (nibbles : List Nat) (isLeafNode : Bool) : Nat :=
  if nibbles.length % 2 = 1 then
    (if isLeafNode then 3 else 1)
  else
    (if isLeafNode then 2 else 0)

/-- `findCommonPrefix` (index.ts lines 83-96): longest shared leading run of
two nibble sequences. -/
def findCommonPfx : List Nat → List Nat → List Nat
  | n1 :: r1, n2 :: r2 => if n1 = n2 then n1 :: findCommonPfx r1 r2 else []
  | _, _ => []

/-- `createBranchNode` (index.ts lines 99-105). -/
def createBranchNode (value : Option String) : TrieNode :=
  .branch (fun _ => .empty) value

/-- `createExtensionNode` (index.ts lines 108-117). -/
def createExtensionNode (sharedNibbles : List Nat) (nextNode : TrieNode) : TrieNode :=
  .extension (encodePfx sharedNibbles false) sharedNibbles nextNode

/-- `createLeafNode` (index.ts lines 120-129). -/
def createLeafNode (keyEnd : List Nat) (value : String) : TrieNode :=
  .leaf (encodePfx keyEnd true) keyEnd value

/-- Rendering of a stored nibble run back to the string the source keeps
(`keyEnd` and `sharedNibbles` are joined lowercase hexadecimal digits). -/
def nibblesStr (l : List Nat) : String :=
  String.mk (l.map Nat.digitChar)

/-- `calculateNodeHash` (index.ts lines 132-160), parametrised by the hash
function `h` standing for `keccak256`.  A branch hashes the concatenation of
the 16 child hashes in slot order, an empty slot contributing `''`, followed
by the branch value or `''`; an extension hashes tag, shared run and child
hash; a leaf hashes tag, suffix and value; the `default` arm hashes `''`
(both `empty` and `unknown` fall outside the three declared cases). -/
def calculateNodeHash (h : String → String) : TrieNode → String
  | .branch children value =>
    h ((if isEmpty (children 0) then "" else calculateNodeHash h (children 0)) ++
       (if isEmpty (children 1) then "" else calculateNodeHash h (children 1)) ++
       (if isEmpty (children 2) then "" else calculateNodeHash h (children 2)) ++
       (if isEmpty (children 3) then "" else calculateNodeHash h (children 3)) ++
       (if isEmpty (children 4) then "" else calculateNodeHash h (children 4)) ++
       (if isEmpty (children 5) then "" else calculateNodeHash h (children 5)) ++
       (if isEmpty (children 6) then "" else calculateNodeHash h (children 6)) ++
       (if isEmpty (children 7) then "" else calculateNodeHash h (children 7)) ++
       (if isEmpty (children 8) then "" else calculateNodeHash h (children 8)) ++
       (if isEmpty (children 9) then "" else calculateNodeHash h (children 9)) ++
       (if isEmpty (children 10) then "" else calculateNodeHash h (children 10)) ++
       (if isEmpty (children 11) then "" else calculateNodeHash h (children 11)) ++
       (if isEmpty (children 12) then "" else calculateNodeHash h (children 12)) ++
       (if isEmpty (children 13) then "" else calculateNodeHash h (children 13)) ++
       (if isEmpty (children 14) then "" else calculateNodeHash h (children 14)) ++
       (if isEmpty (children 15) then "" else calculateNodeHash h (children 15)) ++
       value.getD "")
  | .extension pfx sharedNibbles nextNode =>
    h (toString pfx ++ nibblesStr sharedNibbles ++ calculateNodeHash h nextNode)
  | .leaf pfx keyEnd value =>
    h (toString pfx ++ nibblesStr keyEnd ++ value)
  | .empty => h ""
  | .unknown => h ""

/-- `insertIntoLeaf` (index.ts lines 194-223), written over the fields of
the leaf being split.  Identical key: rebuild the leaf with the new value.
Otherwise build a branch; if the common prefix is shorter than the stored
suffix, re-home the old leaf at slot `S[|C|]` with suffix `S[|C|+1:]`; if it
is shorter than the remaining key, place the new value at slot `R[|C|]` with
suffix `R[|C|+1:]`; wrap in an extension over the common prefix when it is
non-empty.  Note that neither branch of the split ever writes
`branchNode.value`. -/
def insertIntoLeaf (leafKeyEnd : List Nat) (leafValue : String)
    (remainingKey : List Nat) (value : String) : TrieNode :=
  let commonPfx := findCommonPfx leafKeyEnd remainingKey
  if commonPfx.length = leafKeyEnd.length ∧ commonPfx.length = remainingKey.length then
    createLeafNode remainingKey value
  else
    let b0 : Nat → TrieNode := fun _ => .empty
    let b1 :=
      if commonPfx.length < leafKeyEnd.length then
        let leafRemainingKey := leafKeyEnd.drop commonPfx.length
        updateFn b0 (leafRemainingKey.headD 0)
          (createLeafNode (leafRemainingKey.drop 1) leafValue)
      else b0
    let b2 :=
      if commonPfx.length < remainingKey.length then
        let newRemainingKey := remainingKey.drop commonPfx.length
        updateFn b1 (newRemainingKey.headD 0)
          (createLeafNode (newRemainingKey.drop 1) value)
      else b1
    let branchNode := TrieNode.branch b2 none
    if 0 < commonPfx.length then createExtensionNode commonPfx branchNode else branchNode

/-- `insertRecursive` (index.ts lines 175-192) with the bodies of
`insertIntoExtension` (lines 225-260) and `insertIntoBranch` (lines
262-283) inlined at their dispatch sites (Lean requires the recursion to
live in a single definition; the named wrappers follow below).

Extension: full prefix match recurses into the child over the rest of the
key and rebuilds the extension; partial match splits into a branch,
re-homing the old child under slot `E[|C|]` (wrapped in a shorter extension
when more than one nibble of `E` remains) and placing a new leaf carrying
the FULL remainder `R[|C|:]` under slot `R[|C|]` (the source comment says:
create a leaf with the complete key, including the first nibble).  Neither
side of the split ever writes the branch value.

Branch: an exhausted key stores the value on the branch itself; an empty
slot receives a leaf carrying the FULL remaining key (same source comment);
an occupied slot recurses with the rest of the key.

The `default` arm throws `Error('Tipo de nodo desconocido')`; a `null`
node would fault in JavaScript as well (property access on `null`), so both
`empty` and `unknown` map to the error case. -/
def insertRecursive (node : TrieNode) (keyNibbles : List Nat) (value : String)
    (depth : Nat) : Except String TrieNode :=
  let remainingKey := keyNibbles.drop depth
  match node with
  | .leaf _ keyEnd leafValue =>
    .ok (insertIntoLeaf keyEnd leafValue remainingKey value)
  | .extension _ extNibbles nextNode =>
    let commonPfx := findCommonPfx extNibbles remainingKey
    if commonPfx.length = extNibbles.length then
      (insertRecursive nextNode (remainingKey.drop commonPfx.length) value 0).map
        (fun newNextNode => createExtensionNode extNibbles newNextNode)
    else
      let extRemainingKey := extNibbles.drop commonPfx.length
      let newRemainingKey := remainingKey.drop commonPfx.length
      let b0 : Nat → TrieNode := fun _ => .empty
      let b1 :=
        if 0 < extRemainingKey.length then
          updateFn b0 (extRemainingKey.headD 0)
            (if 1 < extRemainingKey.length then
              createExtensionNode (extRemainingKey.drop 1) nextNode
            else nextNode)
        else b0
      let b2 :=
        if 0 < newRemainingKey.length then
          updateFn b1 (newRemainingKey.headD 0) (createLeafNode newRemainingKey value)
        else b1
      let branchNode := TrieNode.branch b2 none
      .ok (if 0 < commonPfx.length then createExtensionNode commonPfx branchNode else branchNode)
  | .branch children bvalue =>
    match remainingKey with
    | [] => .ok (.branch children (some value))
    | index :: restKey =>
      if isEmpty (children index) then
        .ok (.branch (updateFn children index (createLeafNode remainingKey value)) bvalue)
      else
        (insertRecursive (children index) restKey value 0).map
          (fun newChild => .branch (updateFn children index newChild) bvalue)
  | .empty => .error "Tipo de nodo desconocido"
  | .unknown => .error "Tipo de nodo desconocido"

/-- The method `insertIntoExtension` of the source: its body is the
extension arm of `insertRecursive` above, entered with the remaining key as
the whole key (`depth` 0 and `List.drop 0` coincide definitionally). -/
def insertIntoExtension (extNode : TrieNode) (remainingKey : List Nat)
    (value : String) : Except String TrieNode :=
  insertRecursive extNode remainingKey value 0

/-- The method `insertIntoBranch` of the source: its body is the branch arm
of `insertRecursive` above, entered with the remaining key as the whole
key. -/
def insertIntoBranch (branchNode : TrieNode) (remainingKey : List Nat)
    (value : String) : Except String TrieNode :=
  insertRecursive branchNode remainingKey value 0

/-- `arraysEqual` (index.ts lines 347-350): equal length and pointwise equal
elements, which for lists is plain equality. -/
def arraysEqual (arr1 arr2 : List Nat) : Bool :=
  arr1 == arr2

/-- `findBranchIndex` (index.ts lines 353-356): the nibble of the key at a
(possibly negative) depth, or `null` out of bounds.  The argument is an
`Int` because `getRecursive` calls it with `depth - 1`, which is `-1` at the
root. -/
def findBranchIndex (keyNibbles : List Nat) (depth : Int) : Option Nat :=
  if depth < 0 ∨ (keyNibbles.length : Int) ≤ depth then none
  else some (keyNibbles.getD depth.toNat 0)

/-- `getRecursive` (index.ts lines 294-345).  Leaf: compare the unconsumed
nibbles with the stored suffix, but when the unconsumed part is shorter,
first prepend the branch index nibble recovered via `findBranchIndex` (the
reconstruction compensating for leaves that retained their selecting
nibble).  Extension: the unconsumed nibbles must start with the shared run.
Branch: an exhausted key reads the branch value, otherwise descend through
the slot named by the next nibble.  The `default` arm returns `null`. -/
def getRecursive (node : TrieNode) (keyNibbles : List Nat) (depth : Nat) : Option String :=
  let remainingKey := keyNibbles.drop depth
  match node with
  | .leaf _ keyEnd value =>
    let keyToCompare :=
      if remainingKey.length < keyEnd.length then
        match findBranchIndex keyNibbles ((depth : Int) - 1) with
        | some branchIndex => branchIndex :: remainingKey
        | none => remainingKey
      else remainingKey
    if arraysEqual keyEnd keyToCompare then some value else none
  | .extension _ extNibbles nextNode =>
    if remainingKey.length < extNibbles.length
        || !(arraysEqual extNibbles (remainingKey.take extNibbles.length)) then
      none
    else
      getRecursive nextNode keyNibbles (depth + extNibbles.length)
  | .branch children bvalue =>
    match remainingKey with
    | [] => bvalue
    | index :: _ =>
      if isEmpty (children index) then none
      else getRecursive (children index) keyNibbles (depth + 1)
  | .empty => none
  | .unknown => none

/-- The public `insert` (index.ts lines 163-173): an empty root becomes a
leaf holding the whole nibble sequence, otherwise the recursive insertion
rewrites the tree from the root. -/
def insert (root : TrieNode) (key value : String) : Except String TrieNode :=
  let keyNibbles := stringToNibbles key
  if isEmpty root then .ok (createLeafNode keyNibbles value)
  else insertRecursive root keyNibbles value 0

/-- The public `get` (index.ts lines 286-292). -/
def get (root : TrieNode) (key : String) : Option String :=
  if isEmpty root then none
  else getRecursive root (stringToNibbles key) 0

/-- The public `getRootHash` (index.ts lines 359-362): hash of the empty
string for an empty trie. -/
def getRootHash (h : String → String) (root : TrieNode) : String :=
  if isEmpty root then h "" else calculateNodeHash h root

/-- A trie built by a sequence of public inserts starting from the empty
root (the constructor state of `MerklePatriciaTrie`). -/
def buildTrie (pairs : List (String × String)) : Except String TrieNode :=
  pairs.foldlM (fun root kv => MPT.insert root kv.1 kv.2) TrieNode.empty

/-- The slot of a branch node (used only to state theorems). -/
def slotOf (node : TrieNode) (i : Nat) : TrieNode :=
  match node with
  | .branch children _ => children i
  | _ => .empty

/-- The stored suffix of a leaf node (used only to state theorems). -/
def keyEndOf : TrieNode → List Nat
  | .leaf _ keyEnd _ => keyEnd
  | _ => []

/-- Strip one extension wrapper (used only to state theorems about the
branch produced by a split, which may or may not be wrapped). -/
def stripExt : TrieNode → TrieNode
  | .extension _ _ nextNode => nextNode
  | node => node

/-- Number of (non-null) nodes of a tree. -/
def countNodes : TrieNode → Nat
  | .empty => 0
  | .unknown => 1
  | .leaf _ _ _ => 1
  | .extension _ _ nextNode => 1 + countNodes nextNode
  | .branch children _ =>
    1 + countNodes (children 0) + countNodes (children 1) + countNodes (children 2) +
      countNodes (children 3) + countNodes (children 4) + countNodes (children 5) +
      countNodes (children 6) + countNodes (children 7) + countNodes (children 8) +
      countNodes (children 9) + countNodes (children 10) + countNodes (children 11) +
      countNodes (children 12) + countNodes (children 13) + countNodes (children 14) +
      countNodes (children 15)

/-- Structural well-formedness used by the termination analysis: every
extension run in the tree (looking at the 16 addressable slots of every
branch) is non-empty.  Insertion only ever builds extensions over runs it
has checked to be non-empty, so this holds of every tree the class
constructs. -/
def extensionRunsNonempty : TrieNode → Bool
  | .empty => true
  | .unknown => true
  | .leaf _ _ _ => true
  | .extension _ sharedNibbles nextNode =>
    decide (0 < sharedNibbles.length) && extensionRunsNonempty nextNode
  | .branch children _ =>
    extensionRunsNonempty (children 0) && extensionRunsNonempty (children 1) &&
    extensionRunsNonempty (children 2) && extensionRunsNonempty (children 3) &&
    extensionRunsNonempty (children 4) && extensionRunsNonempty (children 5) &&
    extensionRunsNonempty (children 6) && extensionRunsNonempty (children 7) &&
    extensionRunsNonempty (children 8) && extensionRunsNonempty (children 9) &&
    extensionRunsNonempty (children 10) && extensionRunsNonempty (children 11) &&
    extensionRunsNonempty (children 12) && extensionRunsNonempty (children 13) &&
    extensionRunsNonempty (children 14) && extensionRunsNonempty (children 15)

/-- Number of recursive descents performed by `getRecursive`: each arm that
recurses contributes 1, exactly mirroring the control flow of
`getRecursive`. -/
def getCallDepth (node : TrieNode) (keyNibbles : List Nat) (depth : Nat) : Nat :=
  let remainingKey := keyNibbles.drop depth
  match node with
  | .leaf _ _ _ => 0
  | .extension _ extNibbles nextNode =>
    if remainingKey.length < extNibbles.length
        || !(arraysEqual extNibbles (remainingKey.take extNibbles.length)) then
      0
    else
      1 + getCallDepth nextNode keyNibbles (depth + extNibbles.length)
  | .branch children _ =>
    match remainingKey with
    | [] => 0
    | index :: _ =>
      if isEmpty (children index) then 0
      else 1 + getCallDepth (children index) keyNibbles (depth + 1)
  | .empty => 0
  | .unknown => 0

/-- Number of recursive descents performed by `insertRecursive`, mirroring
its control flow (the inserted value does not influence which arm is
taken, so it is not a parameter). -/
def insertCallDepth (node : TrieNode) (keyNibbles : List Nat) (depth : Nat) : Nat :=
  let remainingKey := keyNibbles.drop depth
  match node with
  | .leaf _ _ _ => 0
  | .extension _ extNibbles nextNode =>
    let commonPfx := findCommonPfx extNibbles remainingKey
    if commonPfx.length = extNibbles.length then
      1 + insertCallDepth nextNode (remainingKey.drop commonPfx.length) 0
    else 0
  | .branch children _ =>
    match remainingKey with
    | [] => 0
    | index :: restKey =>
      if isEmpty (children index) then 0
      else 1 + insertCallDepth (children index) restKey 0
  | .empty => 0
  | .unknown => 0

/-! ## Helper lemmas -/

theorem findCommonPfx_self (l : List Nat) : findCommonPfx l l = l := by
  induction l with
  | nil => rfl
  | cons n r ih => simp [findCommonPfx, ih]

theorem findCommonPfx_length_le_right (a b : List Nat) :
    (findCommonPfx a b).length ≤ b.length := by
  induction a generalizing b with
  | nil => simp [findCommonPfx]
  | cons n r ih =>
    cases b with
    | nil => simp [findCommonPfx]
    | cons m s =>
      by_cases h : n = m
      · simpa [findCommonPfx, h] using ih s
      · simp [findCommonPfx, h]

theorem arraysEqual_eq_true_iff (a b : List Nat) : arraysEqual a b = true ↔ a = b := by
  simp [arraysEqual]

theorem arraysEqual_self (l : List Nat) : arraysEqual l l = true := by
  simp [arraysEqual]

theorem hexVal_lt (c : Char) : hexVal c < 16 := by
  unfold hexVal
  split <;> omega

theorem foldr_byte_mem {l : List Char} {x : Nat}
    (hx : x ∈ l.foldr (fun ch acc => (ch.toNat / 16 % 16) :: (ch.toNat % 16) :: acc) []) :
    x < 16 := by
  induction l with
  | nil => simp at hx
  | cons c r ih =>
    simp only [List.foldr_cons, List.mem_cons] at hx
    rcases hx with h | h | h
    · subst h; omega
    · subst h; omega
    · exact ih h

/-- Every nibble the codec produces is below 16, so it is a valid branch
slot index. -/
theorem stringToNibbles_lt_16 (s : String) : ∀ x ∈ stringToNibbles s, x < 16 := by
  intro x hx
  unfold stringToNibbles at hx
  split at hx
  · simp only [List.mem_map] at hx
    obtain ⟨c, _, rfl⟩ := hx
    exact hexVal_lt c
  · exact foldr_byte_mem hx

theorem foldr_byte_length (l : List Char) :
    (l.foldr (fun ch acc => (ch.toNat / 16 % 16) :: (ch.toNat % 16) :: acc) []).length
      = 2 * l.length := by
  induction l with
  | nil => rfl
  | cons c r ih =>
    simp only [List.foldr_cons, List.length_cons, ih]
    omega

/-- The nibble sequence of a key is at most twice as long as the key: the
hexadecimal path yields one nibble per character, the byte path two. -/
theorem stringToNibbles_length_le (s : String) :
    (stringToNibbles s).length ≤ 2 * s.length := by
  unfold stringToNibbles
  have hs : s.length = s.data.length := rfl
  split
  · simp only [List.length_map]
    omega
  · rw [foldr_byte_length]
    omega

theorem wf_extension_parts {p : Nat} {s : List Nat} {n : TrieNode}
    (h : extensionRunsNonempty (.extension p s n) = true) :
    0 < s.length ∧ extensionRunsNonempty n = true := by
  simpa [extensionRunsNonempty] using h

set_option maxRecDepth 4096 in
theorem wf_branch_child {children : Nat → TrieNode} {v : Option String}
    (h : extensionRunsNonempty (.branch children v) = true)
    {i : Nat} (hi : i < 16) : extensionRunsNonempty (children i) = true := by
  simp only [extensionRunsNonempty, Bool.and_eq_true] at h
  interval_cases i <;> tauto

/-- Each recursive descent of `getRecursive` consumes at least one key
nibble (a branch consumes one, an extension its non-empty run), so the
number of descents is bounded by the number of unconsumed nibbles. -/
theorem getCallDepth_le (node : TrieNode) :
    ∀ (keyNibbles : List Nat) (depth : Nat),
      extensionRunsNonempty node = true → (∀ x ∈ keyNibbles, x < 16) →
      getCallDepth node keyNibbles depth ≤ (keyNibbles.drop depth).length := by
  induction node with
  | empty => intro k d _ _; simp [getCallDepth]
  | unknown => intro k d _ _; simp [getCallDepth]
  | leaf p ke v => intro k d _ _; simp [getCallDepth]
  | extension p s n ih =>
    intro k d hwf hk
    obtain ⟨hs, hn⟩ := wf_extension_parts hwf
    simp only [getCallDepth]
    split
    · simp
    · rename_i hcond
      simp only [Bool.or_eq_true, not_or, decide_eq_true_eq, Bool.not_eq_true] at hcond
      have hsle : s.length ≤ (k.drop d).length := Nat.le_of_not_lt hcond.1
      have hrec := ih k (d + s.length) hn hk
      simp only [List.length_drop] at hsle hrec ⊢
      omega
  | branch children v ih =>
    intro k d hwf hk
    simp only [getCallDepth]
    split
    · simp
    · rename_i index rest hrem
      split
      · simp
      · have hmem : index ∈ k := by
          refine List.mem_of_mem_drop (n := d) ?_
          rw [hrem]
          exact List.mem_cons_self index rest
        have hlen : (k.drop d).length = rest.length + 1 := by rw [hrem]; rfl
        have hrec := ih index k (d + 1) (wf_branch_child hwf (hk index hmem)) hk
        simp only [List.length_drop] at hrec hlen ⊢
        omega

/-- Each recursive descent of `insertRecursive` consumes at least one key
nibble, mirrored by `insertCallDepth`. -/
theorem insertCallDepth_le (node : TrieNode) :
    ∀ (keyNibbles : List Nat) (depth : Nat),
      extensionRunsNonempty node = true → (∀ x ∈ keyNibbles, x < 16) →
      insertCallDepth node keyNibbles depth ≤ (keyNibbles.drop depth).length := by
  induction node with
  | empty => intro k d _ _; simp [insertCallDepth]
  | unknown => intro k d _ _; simp [insertCallDepth]
  | leaf p ke v => intro k d _ _; simp [insertCallDepth]
  | extension p s n ih =>
    intro k d hwf hk
    obtain ⟨hs, hn⟩ := wf_extension_parts hwf
    simp only [insertCallDepth]
    split
    · rename_i hfull
      have hk2 : ∀ x ∈ (k.drop d).drop (findCommonPfx s (k.drop d)).length, x < 16 :=
        fun x hx => hk x (List.mem_of_mem_drop (List.mem_of_mem_drop hx))
      have hrec := ih ((k.drop d).drop (findCommonPfx s (k.drop d)).length) 0 hn hk2
      have hcle : (findCommonPfx s (k.drop d)).length ≤ (k.drop d).length :=
        findCommonPfx_length_le_right s (k.drop d)
      simp only [List.drop_zero, List.length_drop] at hrec hcle ⊢
      omega
    · simp
  | branch children v ih =>
    intro k d hwf hk
    simp only [insertCallDepth]
    split
    · simp
    · rename_i index rest hrem
      split
      · simp
      · have hmem : index ∈ k := by
          refine List.mem_of_mem_drop (n := d) ?_
          rw [hrem]
          exact List.mem_cons_self index rest
        have hk2 : ∀ x ∈ rest, x < 16 := by
          intro x hx
          refine hk x (List.mem_of_mem_drop (n := d) ?_)
          rw [hrem]
          exact List.mem_cons_of_mem index hx
        have hrec := ih index rest 0 (wf_branch_child hwf (hk index hmem)) hk2
        have hlen : (k.drop d).length = rest.length + 1 := by rw [hrem]; rfl
        simp only [List.drop_zero, List.length_drop] at hrec hlen ⊢
        omega

/-! ## The claims -/

/-- Claim C1: the round-trip property fails on the code.  Starting from the
reachable state built by the public insert of key `a71355`, inserting
`("a7", "v2")` and then calling `get "a7"` yields `none`, not `some "v2"`:
the leaf split in `insertIntoLeaf` never writes the branch value when the
common prefix spans the whole remaining key, so the freshly inserted value
is dropped. -/
theorem c1_round_trip_fails_after_prefix_insert :
    (buildTrie [("a71355", "45.0ETH"), ("a7", "v2")]).map (fun t => MPT.get t "a7")
      = .ok none := rfl

/-- Claim C2: the prefix-termination edge case drops the shorter key in the
code.  Inserting `a7` then `a71355`, the split branch never receives the
value of `a7` on its own value slot (`insertIntoLeaf` only creates child
leaves); `get "a7"` is `none` while `get "a71355"` still succeeds.  The same
happens in the reverse insertion order. -/
theorem c2_prefix_key_value_dropped :
    (buildTrie [("a7", "v1"), ("a71355", "v2")]).map
        (fun t => (MPT.get t "a7", MPT.get t "a71355"))
      = .ok (none, some "v2")
    ∧ (buildTrie [("a71355", "v2"), ("a7", "v1")]).map
        (fun t => (MPT.get t "a7", MPT.get t "a71355"))
      = .ok (none, some "v2") :=
  ⟨rfl, rfl⟩

/-- Claim C3, counterexample.  Two failures from reachable states.  Shape:
re-inserting key `ef` (after `ab`, `cd`, `ef`) yields the second value but
alters the tree shape, growing the total node count from 4 to 6 — the third
insert stored a leaf that retained its selecting nibble (suffix `ef` under
slot 14), so the fourth insert mis-splits it into a branch with two leaves
instead of overwriting it.  Value: re-inserting key `ee` (after `ab`, `cd`)
does not even leave the second value retrievable — the retained-nibble leaf
`[14, 14]` is split against the stripped rest `[14]`, whose common prefix
`[14]` spans the whole remaining key, so `insertIntoLeaf` never places the
new value (neither as a child nor on the branch value slot) and
`get "ee"` returns absent. -/
theorem c3_overwrite_changes_shape_cex :
    (buildTrie [("ab", "1"), ("cd", "2"), ("ef", "3")]).map countNodes = .ok 4
    ∧ (buildTrie [("ab", "1"), ("cd", "2"), ("ef", "3"), ("ef", "4")]).map
        (fun t => (MPT.get t "ef", countNodes t))
      = .ok (some "4", 6)
    ∧ (buildTrie [("ab", "1"), ("cd", "2"), ("ee", "v1"), ("ee", "v2")]).map
        (fun t => MPT.get t "ee")
      = .ok none :=
  ⟨rfl, rfl, rfl⟩

/-- Claim C3 (amended): inserting `(k, v1)` and then `(k, v2)` into the
EMPTY trie leaves exactly `v2` retrievable by `get k`, and produces a tree
identical to inserting `(k, v2)` alone (a single root leaf: no node-count
increase, no shape change).  From a general reachable state neither part of
the claim holds: as the counterexample shows, a re-insert can mis-split a
leaf that retained its selecting nibble, altering the shape, and can even
lose the second value entirely. -/
theorem c3_overwrite_same_key_on_fresh_trie (k v1 v2 : String) :
    (MPT.insert .empty k v1).bind (fun t => MPT.insert t k v2) = MPT.insert .empty k v2
    ∧ (MPT.insert .empty k v2).map (fun t => MPT.get t k) = .ok (some v2) := by
  constructor
  · simp [MPT.insert, isEmpty, Except.bind, insertRecursive, insertIntoLeaf,
      createLeafNode, findCommonPfx_self]
  · simp [MPT.insert, isEmpty, Except.map, MPT.get, createLeafNode, getRecursive,
      arraysEqual_self]

/-- Claim C4, counterexample: after inserting `ab`, `cd`, `ef`, the leaf in
slot 14 of the root branch stores the suffix `[14, 15]` (the full remaining
key `ef`), not `[15]`: `insertIntoBranch` does not consume the selecting
nibble when filling an empty slot. -/
theorem c4_branch_leaf_retains_nibble_cex :
    (buildTrie [("ab", "1"), ("cd", "2"), ("ef", "3")]).map
        (fun t => keyEndOf (slotOf t 14)) = .ok [14, 15]
    ∧ ([14, 15] : List Nat) ≠ [15] :=
  ⟨rfl, by decide⟩

/-- Claim C4 (amended): the selecting nibble is retained, not consumed.
When insertion reaches a branch with non-empty remaining key `R` whose slot
at index `R[0]` is empty, the leaf placed in that slot stores the FULL
suffix `R` (the selecting nibble is duplicated into the leaf); analogously,
after an extension split with common prefix `C` shorter than both runs, the
new leaf placed under slot `R[|C|]` stores the suffix `R[|C|:]`, again
including the selecting nibble. -/
theorem c4_inserted_leaf_retains_selecting_nibble
    (children : Nat → TrieNode) (bvalue : Option String) (index : Nat)
    (restKey : List Nat) (value : String) (hempty : isEmpty (children index) = true)
    (p : Nat) (extNibbles newKey : List Nat) (nextNode : TrieNode)
    (hsplit : (findCommonPfx extNibbles newKey).length ≠ extNibbles.length)
    (hmore : (findCommonPfx extNibbles newKey).length < newKey.length) :
    insertIntoBranch (.branch children bvalue) (index :: restKey) value
      = .ok (.branch (updateFn children index (createLeafNode (index :: restKey) value)) bvalue)
    ∧ ∃ t, insertIntoExtension (.extension p extNibbles nextNode) newKey value = .ok t
        ∧ slotOf (stripExt t)
            ((newKey.drop (findCommonPfx extNibbles newKey).length).headD 0)
          = createLeafNode (newKey.drop (findCommonPfx extNibbles newKey).length) value := by
  constructor
  · simp [insertIntoBranch, insertRecursive, hempty]
  · have hlen : 0 < (newKey.drop (findCommonPfx extNibbles newKey).length).length := by
      simp only [List.length_drop]
      omega
    simp only [insertIntoExtension, insertRecursive, List.drop_zero]
    rw [if_neg hsplit]
    refine ⟨_, rfl, ?_⟩
    by_cases hc : 0 < (findCommonPfx extNibbles newKey).length
    · simp [hc, hlen, hmore, createExtensionNode, stripExt, slotOf, updateFn]
    · simp [hc, hlen, hmore, createExtensionNode, stripExt, slotOf, updateFn]

/-- Claim C4, witness: the amended theorem applied to a branch with all
slots empty, key `[5, 3]`, and to an extension over the run `[1]` split
against the key `[2, 3]`. -/
theorem c4_inserted_leaf_retains_selecting_nibble_witness :
    insertIntoBranch (.branch (fun _ => .empty) none) (5 :: [3]) "w"
      = .ok (.branch (updateFn (fun _ => .empty) 5 (createLeafNode (5 :: [3]) "w")) none)
    ∧ ∃ t, insertIntoExtension (.extension 0 [1] .empty) [2, 3] "w" = .ok t
        ∧ slotOf (stripExt t) (([2, 3].drop (findCommonPfx [1] [2, 3]).length).headD 0)
          = createLeafNode ([2, 3].drop (findCommonPfx [1] [2, 3]).length) "w" :=
  c4_inserted_leaf_retains_selecting_nibble (fun _ => .empty) none 5 [3] "w" rfl 0 [1]
    [2, 3] .empty (by decide) (by decide)

/-- Claim C5, counterexample: looking up `ef` in the trie built from `ab`,
`cd`, `ef` reaches the leaf stored in slot 14 with one nibble consumed; the
unconsumed nibbles `[15]` differ from the stored suffix `[14, 15]`, yet the
lookup succeeds (the leaf arm of `getRecursive` re-prepends the consumed
branch nibble), refuting the claimed exact-suffix-match condition. -/
theorem c5_leaf_match_not_exact_cex :
    (buildTrie [("ab", "1"), ("cd", "2"), ("ef", "3")]).map
        (fun t => (MPT.get t "ef", keyEndOf (slotOf t 14))) = .ok (some "3", [14, 15])
    ∧ (stringToNibbles "ef").drop 1 ≠ [14, 15] :=
  ⟨rfl, by decide⟩

/-- Claim C5 (amended): when lookup reaches a leaf with stored suffix `S`,
it returns the leaf value if and only if the unconsumed nibbles equal `S`
exactly, or the unconsumed nibbles are shorter than `S` and prepending the
nibble consumed immediately before (when the depth is positive and within
the key) yields exactly `S`; otherwise it reports absent. -/
theorem c5_leaf_lookup_characterisation (p : Nat) (keyEnd : List Nat) (value : String)
    (keyNibbles : List Nat) (depth : Nat) :
    getRecursive (.leaf p keyEnd value) keyNibbles depth
      = if keyNibbles.drop depth = keyEnd
            ∨ ((keyNibbles.drop depth).length < keyEnd.length
                ∧ (findBranchIndex keyNibbles ((depth : Int) - 1)).map
                    (fun bi => bi :: keyNibbles.drop depth) = some keyEnd)
        then some value else none := by
  simp only [getRecursive]
  by_cases hlt : (keyNibbles.drop depth).length < keyEnd.length
  · simp only [if_pos hlt]
    cases hfb : findBranchIndex keyNibbles ((depth : Int) - 1) with
    | none =>
      have hne : keyNibbles.drop depth ≠ keyEnd := fun h => by simp [h] at hlt
      simp [arraysEqual, hfb, hne, Ne.symm hne, hlt]
    | some bi =>
      have hne : keyNibbles.drop depth ≠ keyEnd := fun h => by simp [h] at hlt
      by_cases h : keyEnd = bi :: keyNibbles.drop depth
      · simp [arraysEqual, hfb, h, hlt]
      · simp [arraysEqual, hfb, h, Ne.symm h, hne, Ne.symm hne, hlt]
  · simp only [List.length_drop] at hlt
    by_cases h : keyEnd = keyNibbles.drop depth
    · simp [arraysEqual, hlt, h]
    · simp [arraysEqual, hlt, h, Ne.symm h]

/-- Claim C6: insertion order is hash-significant in the code.  The same
set of pairs inserted as `ab, cd, ef` and as `ef, cd, ab` yields trees
whose slot-14 leaf stores `[14, 15]` in one order and `[15]` in the other
(the leaf keeps or drops its selecting nibble depending on which code path
created it), so the serialised content differs and `getRootHash` differs
for any hash of the content (shown here with the identity hash, whose
output is exactly the hashed content string). -/
theorem c6_root_hash_depends_on_insertion_order :
    (buildTrie [("ab", "1"), ("cd", "2"), ("ef", "3")]).map
        (fun t => keyEndOf (slotOf t 14)) = .ok [14, 15]
    ∧ (buildTrie [("ef", "3"), ("cd", "2"), ("ab", "1")]).map
        (fun t => keyEndOf (slotOf t 14)) = .ok [15]
    ∧ (buildTrie [("ab", "1"), ("cd", "2"), ("ef", "3")]).map (getRootHash id)
        = .ok "3b13d22ef3"
    ∧ (buildTrie [("ef", "3"), ("cd", "2"), ("ab", "1")]).map (getRootHash id)
        = .ok "2ab13d23f3"
    ∧ ("3b13d22ef3" : String) ≠ "2ab13d23f3" :=
  ⟨rfl, rfl, rfl, rfl, by decide⟩

/-- Claim C7, counterexample: the same leaf child placed at slot 0 and at
slot 5 of otherwise empty branches produces the same digest, because an
empty slot contributes the empty string to the hashed concatenation (the
placeholder separates nothing), so slot position is not hash-significant. -/
theorem c7_slot_position_not_hash_significant_cex :
    calculateNodeHash id (.branch (updateFn (fun _ => .empty) 0 (createLeafNode [1] "v")) none)
      = calculateNodeHash id
          (.branch (updateFn (fun _ => .empty) 5 (createLeafNode [1] "v")) none) := rfl

set_option maxHeartbeats 1000000 in
/-- The hashed content of a branch with a single occupied slot `i < 16`
does not depend on `i`: the fifteen empty slots each contribute the empty
string to the concatenation. -/
theorem calculateNodeHash_single_slot (h : String → String) (c : TrieNode)
    (v : Option String) (i : Nat) (hi : i < 16) :
    calculateNodeHash h (.branch (updateFn (fun _ => .empty) i c) v)
      = h ((if isEmpty c then "" else calculateNodeHash h c) ++ v.getD "") := by
  interval_cases i <;>
    simp [calculateNodeHash, updateFn, isEmpty, String.empty_append, String.append_empty]

/-- Claim C7 (amended): a branch digest is the hash of the 16 child digests
concatenated in slot order followed by the branch value or empty, but each
empty slot contributes the EMPTY STRING to the concatenation, so the
placeholder marks no position: the same child placed at any two slot
indices yields the same digest, for every hash function (the hashed content
strings are equal). -/
theorem c7_branch_digest_slot_position_insignificant (h : String → String)
    (c : TrieNode) (v : Option String) (i j : Nat) (hi : i < 16) (hj : j < 16) :
    calculateNodeHash h (.branch (updateFn (fun _ => .empty) i c) v)
      = calculateNodeHash h (.branch (updateFn (fun _ => .empty) j c) v) :=
  (calculateNodeHash_single_slot h c v i hi).trans
    (calculateNodeHash_single_slot h c v j hj).symm

/-- Claim C7, witness: the amended theorem applied at the identity hash, a
concrete leaf child, slots 2 and 7. -/
theorem c7_branch_digest_slot_position_insignificant_witness :
    calculateNodeHash id (.branch (updateFn (fun _ => .empty) 2 (createLeafNode [1] "v")) none)
      = calculateNodeHash id
          (.branch (updateFn (fun _ => .empty) 7 (createLeafNode [1] "v")) none) :=
  c7_branch_digest_slot_position_insignificant id (createLeafNode [1] "v") none 2 7
    (by decide) (by decide)

/-- Claim C8, counterexample: a lookup that encounters a node variant
outside the three declared ones does not abort; the `default` arm of
`getRecursive` returns `null`, which the caller cannot distinguish from a
missing key.  Here the unknown node sits in slot 3 of a branch and the
lookup for the key `[3]` reports plain absence. -/
theorem c8_lookup_swallows_unknown_cex :
    getRecursive (.branch (updateFn (fun _ => .empty) 3 .unknown) none) [3] 0 = none := rfl

/-- Claim C8 (amended): encountering a node variant outside branch,
extension, leaf is fatal during insertion (`insertRecursive` throws), but
during lookup it is silently converted into the user-facing not-found
result (`getRecursive` returns `null`). -/
theorem c8_unknown_variant_insert_throws_get_returns_absent
    (keyNibbles : List Nat) (value : String) (depth : Nat) :
    insertRecursive .unknown keyNibbles value depth = .error "Tipo de nodo desconocido"
    ∧ getRecursive .unknown keyNibbles depth = none :=
  ⟨rfl, rfl⟩

/-- Claim C9: the number of recursive descents of both `insertRecursive`
(mirrored by `insertCallDepth`) and `getRecursive` (mirrored by
`getCallDepth`) is bounded by the length of the key in nibbles, which is at
most twice the length of the key, so both operations run to completion with
bounded stack on every input.  Each recursive step consumes at least one
key nibble; the bound relies on every extension run in the tree being
non-empty, which insertion guarantees by construction (it only wraps runs
it has checked to be non-empty). -/
theorem c9_recursion_depth_bounded (node : TrieNode) (key : String)
    (hwf : extensionRunsNonempty node = true) :
    insertCallDepth node (stringToNibbles key) 0 ≤ (stringToNibbles key).length
    ∧ getCallDepth node (stringToNibbles key) 0 ≤ (stringToNibbles key).length
    ∧ (stringToNibbles key).length ≤ 2 * key.length := by
  refine ⟨?_, ?_, stringToNibbles_length_le key⟩
  · simpa using insertCallDepth_le node (stringToNibbles key) 0 hwf (stringToNibbles_lt_16 key)
  · simpa using getCallDepth_le node (stringToNibbles key) 0 hwf (stringToNibbles_lt_16 key)

/-- Claim C9, witness: the bound applied to the trie built from the four
demo pairs of the source file and the key `a77d337`. -/
theorem c9_recursion_depth_bounded_witness :
    insertCallDepth ((buildTrie [("a71355", "45.0ETH"), ("a77d337", "1.00WEI"),
          ("a7f9365", "1.1ETH"), ("a77d397", "0.12ETH")]).toOption.getD .empty)
        (stringToNibbles "a77d337") 0 ≤ (stringToNibbles "a77d337").length
    ∧ getCallDepth ((buildTrie [("a71355", "45.0ETH"), ("a77d337", "1.00WEI"),
          ("a7f9365", "1.1ETH"), ("a77d397", "0.12ETH")]).toOption.getD .empty)
        (stringToNibbles "a77d337") 0 ≤ (stringToNibbles "a77d337").length
    ∧ (stringToNibbles "a77d337").length ≤ 2 * ("a77d337" : String).length :=
  c9_recursion_depth_bounded
    ((buildTrie [("a71355", "45.0ETH"), ("a77d337", "1.00WEI"),
        ("a7f9365", "1.1ETH"), ("a77d397", "0.12ETH")]).toOption.getD .empty)
    "a77d337" (by rfl)

/-- Claim C10: the empty-string key does not match the hexadecimal pattern
(the character class requires at least one character) and the byte loop
runs zero times, so it encodes to the empty nibble sequence; inserting it
into a fresh trie creates a root leaf with empty suffix and tag 2
(leaf-even), and `get ""` then returns the value. -/
theorem c10_empty_key_round_trip (v : String) :
    stringToNibbles "" = []
    ∧ MPT.insert .empty "" v = .ok (createLeafNode [] v)
    ∧ createLeafNode [] v = .leaf 2 [] v
    ∧ MPT.get (createLeafNode [] v) "" = some v :=
  ⟨rfl, rfl, rfl, rfl⟩

end MPT
